import Mathlib

/-
Verification of the autofill test-data generation library.

This file gives a shallow embedding, translated from the Go sources, of the
declarative population engine: the override resolver (`resolveOverride`,
`mergeOverrides`), the type-safe coercion step (`setFieldValue`, built on
Go's `reflect.Type.ConvertibleTo` semantics for the modelled kinds), the
tag-directed dispatcher (`generateFromTag` with its rule / built-in keyword /
min-max / oneof branches), the type-default generators, the per-struct fill
loop (`fillFields`, `fillWithIndex`) and the slice driver (`fillSlice`),
together with the rules-package registry (`RuleSet`).

Modelling conventions:
  * Go machine integers are modelled as `Int`; no arithmetic in the modelled
    code paths crosses a width boundary, so overflow wrapping is irrelevant.
    Go's `%` on `int` is truncated division remainder, i.e. `Int.tmod`.
  * `time.Time` is modelled at day granularity as an integer day count; the
    wall clock `time.Now()` is the explicit model input `Env.now`, and
    `AddDate(0, 0, -d)` subtracts `d` from the day count.
  * The UUID generator reads bytes from a PRNG seeded with `seed + index`;
    the byte stream is not modelled, so the generator is carried as the
    opaque pure function `Env.uuid` of `seed + index`, exactly its
    dependency set in the source.  The float generator and the engine's
    unused per-instance `rand.Rand` field are likewise outside the modelled
    field kinds.
  * Field kinds are restricted to string, int, int64, bool and time.Time;
    the pointer / slice / nested-struct traversal cases of the source are
    outside this model, as no claim below depends on them.
  * Go string splitting and trimming are re-implemented over `List Char`
    (`splitOnChar`, `trimSpace`) so that concrete witnesses evaluate inside
    the kernel; they follow `strings.Split`, `strings.SplitN(s, "=", 2)` and
    `strings.TrimSpace` on the ASCII directive strings the engine consumes.
  * Go maps (`Override`, the parsed tag parameters) are modelled as
    functions to `Option`; the rules registry is an association list with
    at most one entry per key, as maintained by `RuleSet.Add`.
-/

namespace Autofill

/-! ## Go values and types -/

/-- The Go field kinds covered by the model. -/
inductive GoTy where
  | tString
  | tInt
  | tInt64
  | tBool
  | tTime
deriving DecidableEq, Repr

/-- Go runtime values for the modelled kinds.  `VTime` is a day count; see
the header comment. -/
inductive GoVal where
  | VString (s : String)
  | VInt (n : Int)
  | VInt64 (n : Int)
  | VBool (b : Bool)
  | VTime (day : Int)
deriving DecidableEq, Repr

/-- The dynamic type of a value (`reflect.ValueOf(v).Type()`). -/
def typeOf : GoVal → GoTy
  | .VString _ => .tString
  | .VInt _ => .tInt
  | .VInt64 _ => .tInt64
  | .VBool _ => .tBool
  | .VTime _ => .tTime

/-- Whether a kind belongs to Go's signed-integer family (restricted to the
modelled kinds). -/
def isIntFamily : GoTy → Bool
  | .tInt => true
  | .tInt64 => true
  | _ => false

/-- Model of `reflect.Type.ConvertibleTo` restricted to the modelled kinds.  Integer
kinds convert among themselves, and — per the Go specification — an integer
also converts to `string`, yielding the UTF-8 encoding of the code point.
`string` does not convert to an integer kind, and `time.Time` (a struct
type) converts only to itself. -/
def convertibleTo (src dst : GoTy) : Bool :=
  src = dst || (isIntFamily src && isIntFamily dst) || (isIntFamily src && dst = .tString)

/-- Go's `string(n)` for an integer `n`: the one-character string of the
code point, or `"�"` when `n` is not a valid code point (negative,
surrogate, or above `0x10FFFF`). -/
def intToStringGo (n : Int) : String :=
  if h : 0 ≤ n ∧ n.toNat.isValidChar then
    String.mk [Char.ofNatAux n.toNat h.2]
  else
    String.mk [Char.ofNat 0xfffd]

/-- Model of `reflect.Value.Convert` for the modelled kinds (only invoked under
`convertibleTo`). -/
def convert (v : GoVal) (dst : GoTy) : GoVal :=
  match v, dst with
  | .VInt n, .tInt64 => .VInt64 n
  | .VInt64 n, .tInt => .VInt n
  | .VInt n, .tString => .VString (intToStringGo n)
  | .VInt64 n, .tString => .VString (intToStringGo n)
  | v, _ => v

/-! ## Errors -/

/-- The error shapes produced by the engine.  Wrapping constructors mirror
the `fmt.Errorf("...: %w", ...)` layers of the source. -/
inductive GoErr where
  /-- The `cannot set field of type %s with value of type %T` error. -/
  | cannotSet (fieldTy : GoTy) (valTy : GoTy)
  /-- The `rule %q not found` error. -/
  | ruleNotFound (name : String)
  /-- an error returned by a rule's `Generate` -/
  | ruleFailed (msg : String)
  /-- The `failed to generate from tag %q: %w` wrapper. -/
  | tagWrap (tag : String) (e : GoErr)
  /-- The `failed to set override for field %s: %w` wrapper. -/
  | setOverrideWrap (fieldName : String) (e : GoErr)
  /-- The `failed to generate value for field %s: %w` wrapper. -/
  | genWrap (fieldName : String) (e : GoErr)
  /-- The `failed to set value for field %s: %w` wrapper. -/
  | setWrap (fieldName : String) (e : GoErr)
  /-- The `failed to fill slice element at index %d: %w` wrapper. -/
  | elemWrap (index : Int) (e : GoErr)
deriving DecidableEq, Repr

instance {ε α : Type} [DecidableEq ε] [DecidableEq α] : DecidableEq (Except ε α)
  | .ok a, .ok b =>
    if h : a = b then .isTrue (by rw [h]) else .isFalse (by intro hc; cases hc; exact h rfl)
  | .error a, .error b =>
    if h : a = b then .isTrue (by rw [h]) else .isFalse (by intro hc; cases hc; exact h rfl)
  | .ok _, .error _ => .isFalse (by intro hc; cases hc)
  | .error _, .ok _ => .isFalse (by intro hc; cases hc)

/-! ## Type-safe coercion: `setFieldValue` -/

/-- Model of `setFieldValue` from `autofill.go`.  `cur` is the field's current value
(returned unchanged when the source leaves the field untouched).  The
pointer branch of the source is outside the modelled kinds; the remaining
policy is: exact type match assigns directly, a `ConvertibleTo` type
converts and assigns, anything else errors. -/
def setFieldValue (cur : GoVal) (fieldTy : GoTy) (value : Option GoVal) : Except GoErr GoVal :=
  match value with
  | none => .ok cur
  | some v =>
    if typeOf v = fieldTy then .ok v
    else if convertibleTo (typeOf v) fieldTy then .ok (convert v fieldTy)
    else .error (.cannotSet fieldTy (typeOf v))

/-! ## Context and rules -/

/-- The generation context (`context.go`): locale, seed, positional index,
snapshot of sibling field values, current field name.  The embedded
`rand.Rand` is not consulted by any modelled generator and is omitted. -/
structure Ctx where
  locale : String
  seed : Int
  index : Int
  fieldMap : String → Option GoVal
  fieldName : String

/-- A rule of the rules package: `Generate(ctx) (interface{}, error)` and
`Validate(v) error`. -/
structure RuleM where
  generate : Ctx → Except GoErr (Option GoVal)
  validate : GoVal → Option GoErr := fun _ => none

/-- The rules-package registry: a name-to-rule map, modelled as an
association list with at most one entry per key (the invariant `RuleSet.Add`
maintains).  The mutex serialising concurrent access is outside this
single-threaded model. -/
abbrev RuleSet := List (String × RuleM)

/-- Operation `Get` returns the rule registered under `name`, if any. -/
def RuleSet.Get (rs : RuleSet) (name : String) : Option RuleM :=
  List.lookup name rs

/-- Operation `Add` registers a rule, replacing any existing entry under that name. -/
def RuleSet.Add (rs : RuleSet) (name : String) (r : RuleM) : RuleSet :=
  if (List.lookup name rs).isSome then
    rs.map (fun p => if p.1 = name then (name, r) else p)
  else
    rs ++ [(name, r)]

/-- Operation `Extend` copies every entry of `other` into the receiver:
`for name, rule := range other.rules { rs.rules[name] = rule }`. -/
def RuleSet.Extend (rs : RuleSet) (other : RuleSet) : RuleSet :=
  other.foldl (fun acc p => RuleSet.Add acc p.1 p.2) rs

/-! ## Overrides -/

/-- An entry of an `Override` map: a literal `interface{}` value (possibly
nil) or a `SequenceFunc` (whose result may itself be nil). -/
inductive OvVal where
  | lit (v : Option GoVal)
  | seqF (f : Int → Option GoVal)

/-- An `Override` map: field name to entry. -/
abbrev Override := String → Option OvVal

/-- Model of `resolveOverride` from the source: a `SequenceFunc` is applied to the
index, any other value is used unchanged. -/
def resolveOverride (value : OvVal) (index : Int) : Option GoVal :=
  match value with
  | .seqF f => f index
  | .lit v => v

/-- Model of `mergeOverrides`: entries of later maps overwrite earlier ones. -/
def mergeOverrides (overrides : List Override) : Override :=
  fun name =>
    overrides.foldl (fun acc o => match o name with | some v => some v | none => acc) none

/-! ## Directive-string primitives -/

/-- Model of `strings.Split` on a single-character separator (the engine splits on
`','` and `'|'`); always returns at least one piece. -/
def splitOnChar (c : Char) : List Char → List (List Char)
  | [] => [[]]
  | x :: xs =>
    match splitOnChar c xs with
    | [] => [[x]]
    | h :: t => if x = c then [] :: h :: t else (x :: h) :: t

/-- The ASCII white-space set of `unicode.IsSpace`, sufficient for the
directive strings the engine consumes. -/
def goIsSpace (c : Char) : Bool :=
  c = ' ' || c = '\t' || c = '\n' || c = Char.ofNat 11 || c = Char.ofNat 12 || c = '\r'

/-- Model of `strings.TrimSpace`. -/
def trimSpace (cs : List Char) : List Char :=
  ((cs.dropWhile goIsSpace).reverse.dropWhile goIsSpace).reverse

/-- Model of `strings.SplitN(part, "=", 2)`: split at the first `'='`; `none` when no
`'='` occurs (the `len(kv) == 2` test of the source). -/
def splitN2Eq (cs : List Char) : Option (List Char × List Char) :=
  match cs.span (· ≠ '=') with
  | (_, []) => none
  | (before, _ :: after) => some (before, after)

/-- The accumulating value of `fmt.Sscanf(s, "%d", &x)`: skip leading
spaces, read an optional sign and a digit run; when scanning fails the
target keeps its zero value (the source ignores the error). -/
def sscanfD (cs : List Char) : Int :=
  let t := cs.dropWhile goIsSpace
  match t with
  | '-' :: rest =>
    let ds := rest.takeWhile Char.isDigit
    if ds = [] then 0 else -(Int.ofNat (ds.foldl (fun acc c => acc * 10 + (c.toNat - '0'.toNat)) 0))
  | '+' :: rest =>
    let ds := rest.takeWhile Char.isDigit
    if ds = [] then 0 else Int.ofNat (ds.foldl (fun acc c => acc * 10 + (c.toNat - '0'.toNat)) 0)
  | _ =>
    let ds := t.takeWhile Char.isDigit
    if ds = [] then 0 else Int.ofNat (ds.foldl (fun acc c => acc * 10 + (c.toNat - '0'.toNat)) 0)

/-- Model of `parseTagParams`: walk the comma-separated parts in order; each part
containing `'='` contributes a trimmed key/value pair, later occurrences of
a key overwriting earlier ones. -/
def parseTagParams (parts : List (List Char)) : List Char → Option (List Char) :=
  parts.foldl
    (fun m part =>
      let p := trimSpace part
      match splitN2Eq p with
      | some (k, v) => fun n => if n = trimSpace k then some (trimSpace v) else m n
      | none => m)
    (fun _ => none)

/-! ## Built-in value generators -/

/-- Model of `generateString`: a word chosen by index. -/
def generateString (index : Int) : String :=
  let words : List String := ["hello", "world", "test", "sample", "data", "value", "string", "text"]
  words.getD (Int.tmod index 8).toNat ""

/-- Model of `generateInt` (also serving every signed integer kind through
`generateByType`): `int64(100 + index % 900)`. -/
def generateInt (index : Int) : Int :=
  100 + Int.tmod index 900

/-- Model of `generateBool`: `index % 2 == 0`. -/
def generateBool (index : Int) : Bool :=
  Int.tmod index 2 == 0

/-- Model of `generateTime`: `time.Now().AddDate(0, 0, -(index % 365))` at day
granularity, `now` being the wall-clock input. -/
def generateTime (now index : Int) : Int :=
  now - Int.tmod index 365

/-- Decimal rendering of an integer, as `fmt.Sprintf("%d", n)`. -/
def decString (n : Int) : String :=
  toString n

/-- Model of `generateEmail`: `fmt.Sprintf("%s%d@%s", prefixes[i%4], i, domains[i%3])`. -/
def generateEmail (index : Int) : String :=
  let doms : List String := ["example.com", "test.com", "mail.com"]
  let pfxs : List String := ["user", "test", "demo", "sample"]
  pfxs.getD (Int.tmod index 4).toNat "" ++ decString index ++ "@" ++
    doms.getD (Int.tmod index 3).toNat ""

/-- Model of `generateURL`: `fmt.Sprintf("https://%s%s", domains[i%3], paths[i%4])`. -/
def generateURL (index : Int) : String :=
  let doms : List String := ["example.com", "test.com", "demo.org"]
  let paths : List String := ["/", "/home", "/about", "/contact"]
  "https://" ++ doms.getD (Int.tmod index 3).toNat "" ++ paths.getD (Int.tmod index 4).toNat ""

/-- The model inputs that are external to the engine: the wall clock read by
`time.Now()` and the PRNG-backed UUID generator (an opaque pure function of
`seed + index`, its dependency set in the source). -/
structure Env where
  uuid : Int → String
  now : Int

/-! ## Tag-directed dispatcher -/

/-- The comma-separated parts of a directive. -/
def tagParts (tag : String) : List (List Char) :=
  splitOnChar ',' tag.data

/-- The parsed `key=value` parameters of a directive. -/
def tagParams (tag : String) : List Char → Option (List Char) :=
  parseTagParams (tagParts tag)

/-- The `mainTag := strings.TrimSpace(parts[0])` computation. -/
def mainTagOf (tag : String) : List Char :=
  trimSpace ((tagParts tag).headD [])

/-- The bare-keyword block of `generateFromTag`: when the first part has no
`'='`, recognise the built-in keywords, then try the part as an implicit
rule name; `none` means the block produced nothing and the caller falls
through. -/
def bareBranch (rs : RuleSet) (env : Env) (ctx : Ctx) (mainTag : List Char) :
    Option (Except GoErr (Option GoVal)) :=
  if mainTag.contains '=' then none
  else if mainTag = "seq".data then some (.ok (some (.VInt64 ctx.index)))
  else if mainTag = "now".data then some (.ok (some (.VTime env.now)))
  else if mainTag = "email".data then some (.ok (some (.VString (generateEmail ctx.index))))
  else if mainTag = "url".data then some (.ok (some (.VString (generateURL ctx.index))))
  else if mainTag = "uuid".data then some (.ok (some (.VString (env.uuid (ctx.seed + ctx.index)))))
  else
    match RuleSet.Get rs (String.mk mainTag) with
    | some r => some (r.generate ctx)
    | none => none

/-- The min/max block: with both numeric tokens present and `min ≤ max`,
produce `min + (index % (max - min + 1))` (a Go `int`); otherwise produce
nothing. -/
def minmaxBranch (params : List Char → Option (List Char)) (index : Int) : Option GoVal :=
  match params "min".data, params "max".data with
  | some minS, some maxS =>
    let mn := sscanfD minS
    let mx := sscanfD maxS
    if mn ≤ mx then some (.VInt (mn + Int.tmod index (mx - mn + 1))) else none
  | _, _ => none

/-- The oneof block: split the token on `'|'` and pick the index-modulo
element (`strings.Split` never returns an empty list, so the source's
`len(options) > 0` test always passes). -/
def oneofBranch (params : List Char → Option (List Char)) (index : Int) :
    Except GoErr (Option GoVal) :=
  match params "oneof".data with
  | some s =>
    let options := splitOnChar '|' s
    .ok (some (.VString (String.mk (options.getD (Int.tmod index (options.length : Int)).toNat []))))
  | none => .ok none

/-- Model of `generateFromTag`: a `rule=` token dominates everything and errors when
the name is unregistered; otherwise the bare-keyword block, then min/max,
then oneof, then nothing. -/
def generateFromTag (rs : RuleSet) (env : Env) (tag : String) (ctx : Ctx) :
    Except GoErr (Option GoVal) :=
  let params := tagParams tag
  match params "rule".data with
  | some ruleName =>
    match RuleSet.Get rs (String.mk ruleName) with
    | some r => r.generate ctx
    | none => .error (.ruleNotFound (String.mk ruleName))
  | none =>
    match bareBranch rs env ctx (mainTagOf tag) with
    | some res => res
    | none =>
      match minmaxBranch params ctx.index with
      | some v => .ok (some v)
      | none => oneofBranch params ctx.index

/-- Model of `generateByType` for the modelled kinds: every signed integer kind
receives the `int64` result of `generateInt` (coerced by `setFieldValue`
afterwards). -/
def generateByType (env : Env) (ty : GoTy) (ctx : Ctx) : Except GoErr (Option GoVal) :=
  match ty with
  | .tString => .ok (some (.VString (generateString ctx.index)))
  | .tInt => .ok (some (.VInt64 (generateInt ctx.index)))
  | .tInt64 => .ok (some (.VInt64 (generateInt ctx.index)))
  | .tBool => .ok (some (.VBool (generateBool ctx.index)))
  | .tTime => .ok (some (.VTime (generateTime env.now ctx.index)))

/-- A struct field: name, kind, `autofill` tag, settability (exported). -/
structure Field where
  name : String
  ty : GoTy
  tag : String := ""
  canSet : Bool := true
deriving DecidableEq, Repr

/-- Model of `generateValue`: the `-` sentinel skips the field; a non-empty tag is
dispatched and its nothing-result falls back to type-default generation. -/
def generateValue (rs : RuleSet) (env : Env) (f : Field) (ctx : Ctx) :
    Except GoErr (Option GoVal) :=
  if f.tag = "-" then .ok none
  else if f.tag ≠ "" then
    match generateFromTag rs env f.tag ctx with
    | .error e => .error (.tagWrap f.tag e)
    | .ok (some v) => .ok (some v)
    | .ok none => generateByType env f.ty ctx
  else generateByType env f.ty ctx

/-! ## The fill loop -/

/-- Model of `withStruct`'s sibling-value snapshot: field name to current value, for
the interface-accessible (exported) fields. -/
def mkFieldMap (ty : List Field) (vals : List GoVal) : String → Option GoVal :=
  fun n =>
    (List.zip ty vals).foldr
      (fun p acc => if p.1.canSet && p.1.name == n then some p.2 else acc) none

/-- The effective resolved override for a field: the resolution of a
present entry, `none` when the entry is absent.  In the source a present
entry resolving to nil and an absent entry behave identically (both fall
through to generation), which this collapse mirrors. -/
def effectiveResolved (ov : Override) (name : String) (index : Int) : Option GoVal :=
  match ov name with
  | some ovv => resolveOverride ovv index
  | none => none

/-- The body of `FillWithIndex`'s field loop for one field: a non-settable
field is skipped; a present override entry resolving non-nil is coerced and
assigned (generation skipped entirely); otherwise generation runs and a
non-nil result is coerced and assigned, a nil result leaving the field
untouched.  Errors carry the source's per-field wrapping. -/
def fillStep (rs : RuleSet) (env : Env) (ov : Override) (index : Int) (ctx : Ctx)
    (f : Field) (cur : GoVal) : Except GoErr GoVal :=
  if !f.canSet then .ok cur
  else
    match effectiveResolved ov f.name index with
    | some resolved =>
      match setFieldValue cur f.ty (some resolved) with
      | .error e => .error (.setOverrideWrap f.name e)
      | .ok newv => .ok newv
    | none =>
      match generateValue rs env f { ctx with fieldName := f.name } with
      | .error e => .error (.genWrap f.name e)
      | .ok none => .ok cur
      | .ok (some v) =>
        match setFieldValue cur f.ty (some v) with
        | .error e => .error (.setWrap f.name e)
        | .ok newv => .ok newv

/-- The per-field loop of `FillWithIndex`, walking fields and current values
in lockstep.  On the first error the loop stops: already processed fields
keep their new values, the rest keep their old ones (the source mutates the
struct in place). -/
def fillFields (rs : RuleSet) (env : Env) (ov : Override) (index : Int) (ctx : Ctx) :
    List Field → List GoVal → List GoVal × Option GoErr
  | [], vs => (vs, none)
  | _ :: _, [] => ([], none)
  | f :: fs, cur :: vs =>
    match fillStep rs env ov index ctx f cur with
    | .error e => (cur :: vs, some e)
    | .ok newv =>
      match fillFields rs env ov index ctx fs vs with
      | (rest, err) => (newv :: rest, err)

/-- The engine instance: locale, seed and active rule set.  The embedded
`rand.Rand` is not consulted by any modelled generator and is omitted. -/
structure AutofillM where
  locale : String := "en_US"
  seed : Int := 0
  rules : RuleSet := []

/-- Model of `FillWithIndex` on an already-destructured struct: merge the override
maps, build the indexed context with the sibling-value snapshot, and run the
field loop. -/
def fillWithIndex (af : AutofillM) (env : Env) (ty : List Field) (vals : List GoVal)
    (index : Int) (overrides : List Override) : List GoVal × Option GoErr :=
  let ov := mergeOverrides overrides
  let ctx : Ctx :=
    { locale := af.locale, seed := af.seed, index := index,
      fieldMap := mkFieldMap ty vals, fieldName := "" }
  fillFields af.rules env ov index ctx ty vals

/-- Model of `Fill`: `FillWithIndex` at index 0. -/
def fill (af : AutofillM) (env : Env) (ty : List Field) (vals : List GoVal)
    (overrides : List Override) : List GoVal × Option GoErr :=
  fillWithIndex af env ty vals 0 overrides

/-- The element loop of `FillSlice` starting at position `i`: each element
is filled with its own position as index; the first element error aborts the
call wrapped with that position, later elements untouched. -/
def fillSliceAux (af : AutofillM) (env : Env) (ty : List Field) (overrides : List Override) :
    Int → List (List GoVal) → List (List GoVal) × Option GoErr
  | _, [] => ([], none)
  | i, e :: rest =>
    match fillWithIndex af env ty e i overrides with
    | (e2, none) =>
      let r := fillSliceAux af env ty overrides (i + 1) rest
      (e2 :: r.1, r.2)
    | (e2, some err) => (e2 :: rest, some (.elemWrap i err))

/-- Model of `FillSlice` on an already-destructured slice of structs. -/
def fillSlice (af : AutofillM) (env : Env) (ty : List Field) (elems : List (List GoVal))
    (overrides : List Override) : List (List GoVal) × Option GoErr :=
  fillSliceAux af env ty overrides 0 elems

/-- Modelled from the spec: the `WithDefaults` instance-level default
override map is documented in the README and exercised by the repository's
tests, but its implementation is absent from src/.  Per §4.3, the defaults
form one more override map of lowest precedence: call-site maps win for the
same key, so a fill on an instance holding `defaults` behaves as
`FillWithIndex` with `defaults` prepended to the call-site maps. -/
def fillWithDefaults (af : AutofillM) (env : Env) (ty : List Field) (vals : List GoVal)
    (defaults : Override) (index : Int) (overrides : List Override) :
    List GoVal × Option GoErr :=
  fillWithIndex af env ty vals index (defaults :: overrides)

/-- Read the value of the (first) field named `n` from a fill result. -/
def getFieldVal : List Field → List GoVal → String → Option GoVal
  | f :: fs, v :: vs, n => if f.name = n then some v else getFieldVal fs vs n
  | _, _, _ => none

/-! ## General lemmas about the embedding -/

/-- Merging a single override map is the map itself. -/
theorem mergeOverrides_single (O : Override) (n : String) : mergeOverrides [O] n = O n := by
  cases h : O n <;> simp [mergeOverrides, h]

/-- Merging two override maps: the later (call-site) map wins for a present
key, the earlier (defaults) map fills the gaps. -/
theorem mergeOverrides_pair (d O : Override) (n : String) :
    mergeOverrides [d, O] n = match O n with | some v => some v | none => d n := by
  cases h1 : O n <;> cases h2 : d n <;> simp [mergeOverrides, h1, h2]

/-- Lemma: `fillStep` consults the override map only through the effective
resolution at the field's own name. -/
theorem fillStep_congr_ov (rs : RuleSet) (env : Env) (ov ov2 : Override) (index : Int)
    (ctx : Ctx) (f : Field) (cur : GoVal)
    (h : effectiveResolved ov f.name index = effectiveResolved ov2 f.name index) :
    fillStep rs env ov index ctx f cur = fillStep rs env ov2 index ctx f cur := by
  unfold fillStep
  rw [h]

/-- The field loop consults the override map only at the names of the
fields it walks. -/
theorem fillFields_congr_ov (rs : RuleSet) (env : Env) (ov ov2 : Override) (index : Int)
    (ctx : Ctx) :
    ∀ (fields : List Field) (vals : List GoVal),
      (∀ f ∈ fields, effectiveResolved ov f.name index = effectiveResolved ov2 f.name index) →
      fillFields rs env ov index ctx fields vals = fillFields rs env ov2 index ctx fields vals
  | [], _, _ => rfl
  | _ :: _, [], _ => rfl
  | f :: fs, cur :: vs, h => by
    have h1 := fillStep_congr_ov rs env ov ov2 index ctx f cur (h f (by simp))
    have ih := fillFields_congr_ov rs env ov ov2 index ctx fs vs
      (fun g hg => h g (List.mem_cons_of_mem _ hg))
    simp only [fillFields]
    rw [h1, ih]

/-! ## Registry lemmas -/

/-- Association lookup at the head key. -/
theorem lookup_cons_self (k : String) (v : RuleM) (tl : RuleSet) :
    List.lookup k ((k, v) :: tl) = some v := by
  simp [List.lookup]

/-- Association lookup skips a non-matching head. -/
theorem lookup_cons_ne (n k : String) (v : RuleM) (tl : RuleSet) (h : n ≠ k) :
    List.lookup n ((k, v) :: tl) = List.lookup n tl := by
  have hb : (n == k) = false := beq_eq_false_iff_ne.mpr h
  simp [List.lookup, hb]

/-- Replacing the entry stored under `n` yields `r` under `n` exactly when
`n` was present. -/
theorem lookup_map_replace (n : String) (r : RuleM) :
    ∀ (rs : RuleSet),
      List.lookup n (rs.map (fun p => if p.1 = n then (n, r) else p)) =
        if (List.lookup n rs).isSome then some r else none
  | [] => by simp
  | (k, v) :: tl => by
    simp only [List.map_cons]
    by_cases h : k = n
    · subst h
      have hhd : (if ((k : String), v).1 = k then (k, r) else (k, v)) = (k, r) := by simp
      rw [hhd, lookup_cons_self, lookup_cons_self]
      rfl
    · have hhd : (if ((k : String), v).1 = n then (n, r) else (k, v)) = (k, v) := by simp [h]
      have hnk : n ≠ k := fun hh => h hh.symm
      rw [hhd, lookup_cons_ne n k v _ hnk, lookup_cons_ne n k v tl hnk,
        lookup_map_replace n r tl]

/-- Replacing the entry stored under `n` leaves lookups of other keys
unchanged. -/
theorem lookup_map_replace_other (n m : String) (r : RuleM) (h : m ≠ n) :
    ∀ (rs : RuleSet),
      List.lookup m (rs.map (fun p => if p.1 = n then (n, r) else p)) = List.lookup m rs
  | [] => by simp
  | (k, v) :: tl => by
    simp only [List.map_cons]
    by_cases hk : k = n
    · subst hk
      have hhd : (if ((k : String), v).1 = k then (k, r) else (k, v)) = (k, r) := by simp
      rw [hhd, lookup_cons_ne m k r _ h, lookup_cons_ne m k v tl h,
        lookup_map_replace_other k m r h tl]
    · have hhd : (if ((k : String), v).1 = n then (n, r) else (k, v)) = (k, v) := by simp [hk]
      rw [hhd]
      by_cases hm : m = k
      · subst hm
        rw [lookup_cons_self, lookup_cons_self]
      · rw [lookup_cons_ne m k v _ hm, lookup_cons_ne m k v tl hm,
          lookup_map_replace_other n m r h tl]

/-- Association lookup over an append. -/
theorem lookup_append (n : String) :
    ∀ (l1 l2 : RuleSet),
      List.lookup n (l1 ++ l2) =
        match List.lookup n l1 with | some v => some v | none => List.lookup n l2
  | [], l2 => by simp [List.lookup]
  | (k, v) :: tl, l2 => by
    rw [List.cons_append]
    by_cases h : n = k
    · subst h
      rw [lookup_cons_self, lookup_cons_self]
    · rw [lookup_cons_ne n k v _ h, lookup_cons_ne n k v tl h, lookup_append n tl l2]

/-- Lemma: `Add` registers the rule under its name. -/
theorem RuleSet.Get_Add_self (rs : RuleSet) (n : String) (r : RuleM) :
    RuleSet.Get (RuleSet.Add rs n r) n = some r := by
  unfold RuleSet.Get RuleSet.Add
  by_cases h : (List.lookup n rs).isSome
  · rw [if_pos h, lookup_map_replace, if_pos h]
  · have hn : List.lookup n rs = none := by
      cases hh : List.lookup n rs
      · rfl
      · rw [hh] at h
        simp at h
    rw [if_neg h, lookup_append, hn, lookup_cons_self]

/-- Lemma: `Add` leaves other names unchanged. -/
theorem RuleSet.Get_Add_other (rs : RuleSet) (n m : String) (r : RuleM) (h : m ≠ n) :
    RuleSet.Get (RuleSet.Add rs n r) m = RuleSet.Get rs m := by
  unfold RuleSet.Get RuleSet.Add
  by_cases hs : (List.lookup n rs).isSome
  · rw [if_pos hs]
    exact lookup_map_replace_other n m r h rs
  · rw [if_neg hs, lookup_append]
    cases hh : List.lookup m rs
    · rw [lookup_cons_ne m n r [] h]
      rfl
    · rfl

/-- A name absent from the key list is absent from the registry. -/
theorem RuleSet.Get_eq_none_of_not_mem :
    ∀ (rs : RuleSet) (n : String), n ∉ rs.map Prod.fst → RuleSet.Get rs n = none
  | [], _, _ => rfl
  | (k, v) :: tl, n, h => by
    simp only [List.map_cons, List.mem_cons, not_or] at h
    unfold RuleSet.Get
    rw [lookup_cons_ne n k v tl h.1]
    exact RuleSet.Get_eq_none_of_not_mem tl n h.2

/-- Lookup after `Extend`, by induction over the merged-in set. -/
theorem extendGetAux :
    ∀ (B A : RuleSet), (B.map Prod.fst).Nodup → ∀ (n : String),
      RuleSet.Get (RuleSet.Extend A B) n =
        match RuleSet.Get B n with
        | some r => some r
        | none => RuleSet.Get A n
  | [], A, _, n => by
    have h1 : RuleSet.Extend A [] = A := rfl
    have h2 : RuleSet.Get ([] : RuleSet) n = none := rfl
    rw [h1, h2]
  | (k, r) :: B2, A, hnd, n => by
    rw [List.map_cons, List.nodup_cons] at hnd
    have hstep : RuleSet.Extend A ((k, r) :: B2) = RuleSet.Extend (RuleSet.Add A k r) B2 := rfl
    rw [hstep, extendGetAux B2 (RuleSet.Add A k r) hnd.2 n]
    by_cases hn : n = k
    · subst hn
      have hB2 : RuleSet.Get B2 n = none := RuleSet.Get_eq_none_of_not_mem B2 n hnd.1
      have hhd : RuleSet.Get ((n, r) :: B2) n = some r := lookup_cons_self n r B2
      rw [hB2, hhd, RuleSet.Get_Add_self]
    · have hhd : RuleSet.Get ((k, r) :: B2) n = RuleSet.Get B2 n := lookup_cons_ne n k r B2 hn
      rw [hhd, RuleSet.Get_Add_other A k n r hn]

/-! ## C2 — Extend precedence -/

/-- A rule producing a constant string, standing in for the receiver's own
pre-existing registration. -/
def c2RuleOrig : RuleM := { generate := fun _ => .ok (some (.VString "original")) }

/-- A rule producing a different constant string, standing in for the
merged-in registration. -/
def c2RuleNew : RuleM := { generate := fun _ => .ok (some (.VString "new")) }

/-- A throwaway context to tell the two rules apart. -/
def c2ctx : Ctx := { locale := "", seed := 0, index := 0, fieldMap := fun _ => none, fieldName := "" }

/-- C2 counterexample: with A = {x ↦ original} and B = {x ↦ new},
`A.Extend(B)` does not retain A's own rule under "x" — B's entry overwrites
it, as the source's own doc comment (`Existing rules with the same name
will be replaced`) and `TestRuleSet_ExtendOverwrite` state. -/
theorem c2_counterexample :
    ¬ RuleSet.Get (RuleSet.Extend [("x", c2RuleOrig)] [("x", c2RuleNew)]) "x" = some c2RuleOrig := by
  intro h
  have h1 : RuleSet.Get (RuleSet.Extend [("x", c2RuleOrig)] [("x", c2RuleNew)]) "x" =
      some c2RuleNew := rfl
  rw [h1] at h
  have h2 : c2RuleNew.generate c2ctx = c2RuleOrig.generate c2ctx := by
    rw [Option.some.inj h]
  simp [c2RuleOrig, c2RuleNew] at h2

/-- C2 amended: after `A.Extend(B)`, every name defined in B maps to B's
rule — B's entries overwrite A's pre-existing ones under the same name —
and every name not defined in B keeps A's rule (so names only in B are
added, and names only in A are retained). -/
theorem c2_extend_overwrites (A B : RuleSet) (h : (B.map Prod.fst).Nodup) (n : String) :
    RuleSet.Get (RuleSet.Extend A B) n =
      match RuleSet.Get B n with
      | some r => some r
      | none => RuleSet.Get A n :=
  extendGetAux B A h n

/-- Witness for the amended C2: a name in both sets receives B's rule, a
name only in A is retained. -/
theorem c2_extend_overwrites_witness :
    RuleSet.Get (RuleSet.Extend [("x", c2RuleOrig), ("y", c2RuleOrig)] [("x", c2RuleNew)]) "x" =
      some c2RuleNew ∧
    RuleSet.Get (RuleSet.Extend [("x", c2RuleOrig), ("y", c2RuleOrig)] [("x", c2RuleNew)]) "y" =
      some c2RuleOrig := by
  constructor
  · exact c2_extend_overwrites [("x", c2RuleOrig), ("y", c2RuleOrig)] [("x", c2RuleNew)]
      (by decide) "x"
  · exact c2_extend_overwrites [("x", c2RuleOrig), ("y", c2RuleOrig)] [("x", c2RuleNew)]
      (by decide) "y"

/-! ## C1 — integer/string coercion policy -/

/-- C1: evaluating the source's coercion at the repository's own
type-mismatch test input.  `setFieldValue` relies on `ConvertibleTo`, and Go
counts int64→string as convertible, so an int64 override into a string
field is accepted and assigns the code-point string `"〹"` (U+3039) with no
error — the whole `Fill` call succeeds — where the README, the examples and
the tests demand a `cannot set field of type string with value of type
int64` error.  The int→int64 half of the claim does hold: an int value is
numerically converted into an int64 field. -/
theorem c1_code_divergence :
    setFieldValue (.VString "") .tString (some (.VInt64 12345)) = .ok (.VString "〹") ∧
    setFieldValue (.VInt64 0) .tInt64 (some (.VInt 100)) = .ok (.VInt64 100) ∧
    fill { seed := 12345, rules := [] } { uuid := fun _ => "", now := 0 }
        [{ name := "ID", ty := .tString, tag := "uuid" }] [.VString ""]
        [fun n => if n = "ID" then some (.lit (some (.VInt64 12345))) else none] =
      ([.VString "〹"], none) := by
  decide

/-! ## C3 — nil override resolution -/

/-- A one-string-field struct, as in the repository's basic examples. -/
def oneStringField : List Field := [{ name := "Name", ty := .tString }]

/-- An override map sending the field to a literal nil. -/
def c3ov : Override := fun n => if n = "Name" then some (.lit none) else none

/-- C3 counterexample: with the override entry for `Name` a nil literal,
population does not leave the field at its prior/zero value `""`: the
type-default generation strategy runs and assigns `"hello"` (no error is
raised). -/
theorem c3_counterexample :
    fill { seed := 0, rules := [] } { uuid := fun _ => "", now := 0 } oneStringField [.VString ""] [c3ov] =
      ([.VString "hello"], none) ∧ GoVal.VString "hello" ≠ GoVal.VString "" := by
  constructor
  · decide
  · decide

/-- C3 amended: a present override entry whose resolution at the call's
index is nil raises no error but does not suppress the field either: the
call behaves exactly as if the entry were absent, falling through to
tag-directed and type-default generation for that field. -/
theorem c3_nil_override_falls_through (af : AutofillM) (env : Env) (ty : List Field)
    (vals : List GoVal) (index : Int) (O : Override) (name : String) (ovv : OvVal)
    (h1 : O name = some ovv) (h2 : resolveOverride ovv index = none) :
    fillWithIndex af env ty vals index [O] =
      fillWithIndex af env ty vals index [fun n => if n = name then none else O n] := by
  unfold fillWithIndex
  apply fillFields_congr_ov
  intro f _
  by_cases hn : f.name = name
  · rw [hn]
    simp [effectiveResolved, mergeOverrides_single, h1, h2]
  · simp [effectiveResolved, mergeOverrides_single, hn]

/-- Witness for the amended C3 at a concrete input. -/
theorem c3_nil_override_falls_through_witness :
    fillWithIndex { seed := 0, rules := [] } { uuid := fun _ => "", now := 0 } oneStringField
        [.VString ""] 0 [c3ov] =
      fillWithIndex { seed := 0, rules := [] } { uuid := fun _ => "", now := 0 } oneStringField
        [.VString ""] 0 [fun n => if n = "Name" then none else c3ov n] :=
  c3_nil_override_falls_through _ _ _ _ _ c3ov "Name" (.lit none) rfl rfl

/-! ## C10 — unknown override keys -/

/-- C10: an override entry whose key names no field of the target struct is
ignored without error: the call's whole result (every populated field and
the returned error) is identical to the call without that entry. -/
theorem c10_unknown_key_ignored (af : AutofillM) (env : Env) (ty : List Field)
    (vals : List GoVal) (index : Int) (O : Override) (k : String) (v : OvVal)
    (hk : ∀ f ∈ ty, f.name ≠ k) :
    fillWithIndex af env ty vals index [fun n => if n = k then some v else O n] =
      fillWithIndex af env ty vals index [O] := by
  unfold fillWithIndex
  apply fillFields_congr_ov
  intro f hf
  have hne := hk f hf
  simp [effectiveResolved, mergeOverrides_single, hne]

/-- Witness for C10 at a concrete input. -/
theorem c10_unknown_key_ignored_witness :
    fillWithIndex { seed := 0, rules := [] } { uuid := fun _ => "", now := 0 } oneStringField
        [.VString ""] 0
        [fun n => if n = "Bogus" then some (.lit (some (.VString "x")))
          else (fun _ => none : Override) n] =
      fillWithIndex { seed := 0, rules := [] } { uuid := fun _ => "", now := 0 } oneStringField
        [.VString ""] 0 [fun _ => none] :=
  c10_unknown_key_ignored _ _ _ _ _ (fun _ => none) "Bogus" (.lit (some (.VString "x")))
    (by decide)

/-! ## C4 — determinism and the wall clock -/

/-- Type-default generation ignores the wall clock away from time fields. -/
theorem generateByType_now_irrel (u : Int → String) (n1 n2 : Int) (ty : GoTy) (ctx : Ctx)
    (h : ty ≠ GoTy.tTime) :
    generateByType ⟨u, n1⟩ ty ctx = generateByType ⟨u, n2⟩ ty ctx := by
  cases ty <;> simp_all [generateByType]

/-- The bare-keyword block ignores the wall clock unless the token is
`now`. -/
theorem bareBranch_now_irrel (rs : RuleSet) (u : Int → String) (n1 n2 : Int) (ctx : Ctx)
    (mt : List Char) (h : mt ≠ "now".data) :
    bareBranch rs ⟨u, n1⟩ ctx mt = bareBranch rs ⟨u, n2⟩ ctx mt := by
  unfold bareBranch
  split_ifs <;> rfl

/-- The dispatcher ignores the wall clock unless the directive's first token
is `now`. -/
theorem generateFromTag_now_irrel (rs : RuleSet) (u : Int → String) (n1 n2 : Int)
    (tag : String) (ctx : Ctx) (h : mainTagOf tag ≠ "now".data) :
    generateFromTag rs ⟨u, n1⟩ tag ctx = generateFromTag rs ⟨u, n2⟩ tag ctx := by
  unfold generateFromTag
  rw [bareBranch_now_irrel rs u n1 n2 ctx (mainTagOf tag) h]

/-- Lemma: `generateValue` ignores the wall clock for a field that is not
time-typed and whose directive does not start with `now`. -/
theorem generateValue_now_irrel (rs : RuleSet) (u : Int → String) (n1 n2 : Int) (f : Field)
    (ctx : Ctx) (h1 : mainTagOf f.tag ≠ "now".data) (h2 : f.ty ≠ GoTy.tTime) :
    generateValue rs ⟨u, n1⟩ f ctx = generateValue rs ⟨u, n2⟩ f ctx := by
  unfold generateValue
  rw [generateFromTag_now_irrel rs u n1 n2 f.tag ctx h1,
    generateByType_now_irrel u n1 n2 f.ty ctx h2]

/-- One field step ignores the wall clock under the same conditions. -/
theorem fillStep_now_irrel (rs : RuleSet) (u : Int → String) (n1 n2 : Int) (ov : Override)
    (index : Int) (ctx : Ctx) (f : Field) (cur : GoVal)
    (h1 : mainTagOf f.tag ≠ "now".data) (h2 : f.ty ≠ GoTy.tTime) :
    fillStep rs ⟨u, n1⟩ ov index ctx f cur = fillStep rs ⟨u, n2⟩ ov index ctx f cur := by
  unfold fillStep
  rw [generateValue_now_irrel rs u n1 n2 f { ctx with fieldName := f.name } h1 h2]

/-- The field loop ignores the wall clock when no field is time-typed or
`now`-tagged. -/
theorem fillFields_now_irrel (rs : RuleSet) (u : Int → String) (n1 n2 : Int) (ov : Override)
    (index : Int) (ctx : Ctx) :
    ∀ (fields : List Field) (vals : List GoVal),
      (∀ f ∈ fields, mainTagOf f.tag ≠ "now".data ∧ f.ty ≠ GoTy.tTime) →
      fillFields rs ⟨u, n1⟩ ov index ctx fields vals =
        fillFields rs ⟨u, n2⟩ ov index ctx fields vals
  | [], _, _ => rfl
  | _ :: _, [], _ => rfl
  | f :: fs, cur :: vs, h => by
    have hf := h f (List.mem_cons_self _ _)
    have ih := fillFields_now_irrel rs u n1 n2 ov index ctx fs vs
      (fun g hg => h g (List.mem_cons_of_mem _ hg))
    simp only [fillFields]
    rw [fillStep_now_irrel rs u n1 n2 ov index ctx f cur hf.1 hf.2, ih]

/-- C4 counterexample: a struct with one `time.Time` field, populated twice
with the same seed 12345 and index 0 but at different wall-clock instants,
produces different output — `generateTime` derives the value from
`time.Now()`, so the output is not a function of the seed alone. -/
theorem c4_counterexample :
    fill { seed := 12345, rules := [] } { uuid := fun _ => "", now := 0 }
        [{ name := "CreatedAt", ty := .tTime }] [.VTime 0] [] ≠
      fill { seed := 12345, rules := [] } { uuid := fun _ => "", now := 1 }
        [{ name := "CreatedAt", ty := .tTime }] [.VTime 0] [] := by
  decide

/-- Case split for the dispatcher under a changed wall clock: the results
are equal unless the directive takes the `now` branch, in which case both
runs produce the respective clock value. -/
theorem generateFromTag_now_cases (rs : RuleSet) (u : Int → String) (n1 n2 : Int)
    (tag : String) (ctx : Ctx) :
    generateFromTag rs ⟨u, n1⟩ tag ctx = generateFromTag rs ⟨u, n2⟩ tag ctx ∨
    (generateFromTag rs ⟨u, n1⟩ tag ctx = .ok (some (.VTime n1)) ∧
      generateFromTag rs ⟨u, n2⟩ tag ctx = .ok (some (.VTime n2))) := by
  by_cases h : mainTagOf tag = "now".data
  · cases hrp : tagParams tag "rule".data with
    | some rn =>
      left
      simp only [generateFromTag, hrp]
    | none =>
      right
      constructor
      · simp only [generateFromTag, hrp, h]
        rfl
      · simp only [generateFromTag, hrp, h]
        rfl
  · left
    exact generateFromTag_now_irrel rs u n1 n2 tag ctx h

/-- Case split for type-default generation under a changed wall clock: the
results are equal unless the kind is time, in which case both runs produce
the respective clock-derived value. -/
theorem generateByType_now_cases (u : Int → String) (n1 n2 : Int) (ty : GoTy) (ctx : Ctx) :
    generateByType ⟨u, n1⟩ ty ctx = generateByType ⟨u, n2⟩ ty ctx ∨
    (generateByType ⟨u, n1⟩ ty ctx = .ok (some (.VTime (generateTime n1 ctx.index))) ∧
      generateByType ⟨u, n2⟩ ty ctx = .ok (some (.VTime (generateTime n2 ctx.index)))) := by
  cases ty
  case tTime => exact Or.inr ⟨rfl, rfl⟩
  all_goals exact Or.inl rfl

/-- Case split for `generateValue` under a changed wall clock: the results
are equal, or both runs produce a time value (from the `now` branch or the
time type-default). -/
theorem generateValue_now_cases (rs : RuleSet) (u : Int → String) (n1 n2 : Int) (f : Field)
    (ctx : Ctx) :
    generateValue rs ⟨u, n1⟩ f ctx = generateValue rs ⟨u, n2⟩ f ctx ∨
    (∃ t1 t2 : Int, generateValue rs ⟨u, n1⟩ f ctx = .ok (some (.VTime t1)) ∧
      generateValue rs ⟨u, n2⟩ f ctx = .ok (some (.VTime t2))) := by
  by_cases h1 : f.tag = "-"
  · left
    simp [generateValue, h1]
  · by_cases h2 : f.tag = ""
    · rcases generateByType_now_cases u n1 n2 f.ty ctx with h | ⟨ha, hb⟩
      · left
        simpa [generateValue, h1, h2] using h
      · right
        exact ⟨generateTime n1 ctx.index, generateTime n2 ctx.index,
          by simp [generateValue, h1, h2, ha], by simp [generateValue, h1, h2, hb]⟩
    · rcases generateFromTag_now_cases rs u n1 n2 f.tag ctx with h | ⟨ha, hb⟩
      · cases hg : generateFromTag rs ⟨u, n2⟩ f.tag ctx with
        | error e =>
          have hg1 : generateFromTag rs ⟨u, n1⟩ f.tag ctx = .error e := by rw [h, hg]
          left
          simp [generateValue, h1, h2, hg, hg1]
        | ok vo =>
          have hg1 : generateFromTag rs ⟨u, n1⟩ f.tag ctx = .ok vo := by rw [h, hg]
          cases vo with
          | some v =>
            left
            simp [generateValue, h1, h2, hg, hg1]
          | none =>
            rcases generateByType_now_cases u n1 n2 f.ty ctx with hB | ⟨hA, hC⟩
            · left
              simpa [generateValue, h1, h2, hg, hg1] using hB
            · right
              exact ⟨generateTime n1 ctx.index, generateTime n2 ctx.index,
                by simp [generateValue, h1, h2, hg1, hA], by simp [generateValue, h1, h2, hg, hC]⟩
      · right
        exact ⟨n1, n2, by simp [generateValue, h1, h2, ha], by simp [generateValue, h1, h2, hb]⟩

/-- Case split for one field step under a changed wall clock: the step
results are equal — including equal errors, since a time value failing
coercion produces a clock-independent error naming only the types — or both
runs assign successfully (a time field receiving the respective clock
value). -/
theorem fillStep_now_cases (rs : RuleSet) (u : Int → String) (n1 n2 : Int) (ov : Override)
    (index : Int) (ctx : Ctx) (f : Field) (cur : GoVal) :
    fillStep rs ⟨u, n1⟩ ov index ctx f cur = fillStep rs ⟨u, n2⟩ ov index ctx f cur ∨
    (∃ w1 w2 : GoVal, fillStep rs ⟨u, n1⟩ ov index ctx f cur = .ok w1 ∧
      fillStep rs ⟨u, n2⟩ ov index ctx f cur = .ok w2) := by
  by_cases hcs : f.canSet = true
  · cases hov : effectiveResolved ov f.name index with
    | some resolved =>
      left
      simp [fillStep, hcs, hov]
    | none =>
      rcases generateValue_now_cases rs u n1 n2 f { ctx with fieldName := f.name } with
        h | ⟨t1, t2, ha, hb⟩
      · left
        simp [fillStep, hcs, hov, h]
      · by_cases hty : f.ty = GoTy.tTime
        · right
          refine ⟨.VTime t1, .VTime t2, ?_, ?_⟩
          · simp [fillStep, hcs, hov, ha, setFieldValue, typeOf, hty]
          · simp [fillStep, hcs, hov, hb, setFieldValue, typeOf, hty]
        · left
          have hsv : ∀ t : Int, setFieldValue cur f.ty (some (.VTime t)) =
              .error (.cannotSet f.ty .tTime) := by
            intro t
            have hne : GoTy.tTime ≠ f.ty := fun hh => hty hh.symm
            simp [setFieldValue, typeOf, convertibleTo, isIntFamily, hne]
          simp [fillStep, hcs, hov, ha, hb, hsv]
  · left
    have hcs2 : f.canSet = false := by
      cases hcsv : f.canSet
      · rfl
      · exact absurd hcsv hcs
    simp [fillStep, hcs2]

/-- Per-field determinism of the field loop under a changed wall clock: the
error component of the result is identical, and every field all of whose
occurrences are neither time-typed nor `now`-tagged holds the same value in
both runs — even inside a composite that also has time fields. -/
theorem fillFields_now_fields (rs : RuleSet) (u : Int → String) (n1 n2 : Int) (ov : Override)
    (index : Int) (ctx : Ctx) :
    ∀ (fields : List Field) (vals : List GoVal),
      (fillFields rs ⟨u, n1⟩ ov index ctx fields vals).2 =
        (fillFields rs ⟨u, n2⟩ ov index ctx fields vals).2 ∧
      ∀ name : String,
        (∀ f ∈ fields, f.name = name → mainTagOf f.tag ≠ "now".data ∧ f.ty ≠ GoTy.tTime) →
        getFieldVal fields (fillFields rs ⟨u, n1⟩ ov index ctx fields vals).1 name =
          getFieldVal fields (fillFields rs ⟨u, n2⟩ ov index ctx fields vals).1 name
  | [], _ => ⟨rfl, fun _ _ => rfl⟩
  | _ :: _, [] => ⟨rfl, fun _ _ => rfl⟩
  | f :: fs, cur :: vs => by
    have ih := fillFields_now_fields rs u n1 n2 ov index ctx fs vs
    rcases hr1 : fillFields rs ⟨u, n1⟩ ov index ctx fs vs with ⟨rest1, err1⟩
    rcases hr2 : fillFields rs ⟨u, n2⟩ ov index ctx fs vs with ⟨rest2, err2⟩
    rw [hr1, hr2] at ih
    rcases fillStep_now_cases rs u n1 n2 ov index ctx f cur with heq | ⟨w1, w2, ha, hb⟩
    · cases hstep : fillStep rs ⟨u, n1⟩ ov index ctx f cur with
      | error e =>
        have hstep2 : fillStep rs ⟨u, n2⟩ ov index ctx f cur = .error e := by rw [← heq, hstep]
        constructor
        · simp [fillFields, hstep, hstep2]
        · intro name _
          simp [fillFields, hstep, hstep2]
      | ok newv =>
        have hstep2 : fillStep rs ⟨u, n2⟩ ov index ctx f cur = .ok newv := by rw [← heq, hstep]
        constructor
        · simp only [fillFields, hstep, hstep2, hr1, hr2]
          exact ih.1
        · intro name hname
          simp only [fillFields, hstep, hstep2, hr1, hr2]
          by_cases hn : f.name = name
          · simp [getFieldVal, hn]
          · simp only [getFieldVal, if_neg hn]
            exact ih.2 name (fun g hg hgname => hname g (List.mem_cons_of_mem _ hg) hgname)
    · constructor
      · simp only [fillFields, ha, hb, hr1, hr2]
        exact ih.1
      · intro name hname
        simp only [fillFields, ha, hb, hr1, hr2]
        by_cases hn : f.name = name
        · have hf := hname f (List.mem_cons_self _ _) hn
          have heq2 := fillStep_now_irrel rs u n1 n2 ov index ctx f cur hf.1 hf.2
          rw [ha, hb] at heq2
          have hw : w1 = w2 := by
            injection heq2
          simp [getFieldVal, hn, hw]
        · simp only [getFieldVal, if_neg hn]
          exact ih.2 name (fun g hg hgname => hname g (List.mem_cons_of_mem _ hg) hgname)

/-- C4 amended: for a fixed seed and index, two population calls over
structurally identical composites — made at possibly different wall-clock
instants — return the same error outcome and byte-identical values for
every field that is not time-typed and not `now`-tagged, even when the
composite also contains time fields; only the `now` directive and the time
type-default consult the clock, so exactly those fields may differ. -/
theorem c4_determinism_excluding_time (af : AutofillM) (u : Int → String) (n1 n2 : Int)
    (ty : List Field) (vals : List GoVal) (index : Int) (overrides : List Override) :
    (fillWithIndex af ⟨u, n1⟩ ty vals index overrides).2 =
      (fillWithIndex af ⟨u, n2⟩ ty vals index overrides).2 ∧
    ∀ name : String,
      (∀ f ∈ ty, f.name = name → mainTagOf f.tag ≠ "now".data ∧ f.ty ≠ GoTy.tTime) →
      getFieldVal ty (fillWithIndex af ⟨u, n1⟩ ty vals index overrides).1 name =
        getFieldVal ty (fillWithIndex af ⟨u, n2⟩ ty vals index overrides).1 name := by
  unfold fillWithIndex
  exact fillFields_now_fields af.rules u n1 n2 (mergeOverrides overrides) index _ ty vals

/-- Witness for the amended C4 on a mixed composite: a struct holding both
a string field and a `time.Time` field, filled at two different wall-clock
instants with the same seed and index, agrees on the string field. -/
theorem c4_determinism_excluding_time_witness :
    getFieldVal [{ name := "Name", ty := .tString }, { name := "CreatedAt", ty := .tTime }]
        (fillWithIndex { seed := 12345, rules := [] } { uuid := fun _ => "", now := 5 }
          [{ name := "Name", ty := .tString }, { name := "CreatedAt", ty := .tTime }]
          [.VString "", .VTime 0] 0 []).1 "Name" =
      getFieldVal [{ name := "Name", ty := .tString }, { name := "CreatedAt", ty := .tTime }]
        (fillWithIndex { seed := 12345, rules := [] } { uuid := fun _ => "", now := 99 }
          [{ name := "Name", ty := .tString }, { name := "CreatedAt", ty := .tTime }]
          [.VString "", .VTime 0] 0 []).1 "Name" :=
  (c4_determinism_excluding_time { seed := 12345, rules := [] } (fun _ => "") 5 99
    [{ name := "Name", ty := .tString }, { name := "CreatedAt", ty := .tTime }]
    [.VString "", .VTime 0] 0 []).2 "Name" (by decide)

/-! ## The field-override master lemma -/

/-- A settable field with a non-nil effective override of exactly matching
type is assigned that value by its step. -/
theorem fillStep_override_hit (rs : RuleSet) (env : Env) (ov : Override) (index : Int)
    (ctx : Ctx) (f : Field) (cur : GoVal) (v : GoVal)
    (hset : f.canSet = true)
    (hres : effectiveResolved ov f.name index = some v)
    (hty : typeOf v = f.ty) :
    fillStep rs env ov index ctx f cur = .ok v := by
  unfold fillStep
  rw [hset, hres]
  simp [setFieldValue, hty]

/-- The field loop preserves the number of values. -/
theorem fillFields_len (rs : RuleSet) (env : Env) (ov : Override) (index : Int) (ctx : Ctx) :
    ∀ (fields : List Field) (vals : List GoVal),
      (fillFields rs env ov index ctx fields vals).1.length = vals.length
  | [], _ => rfl
  | _ :: _, [] => rfl
  | f :: fs, cur :: vs => by
    cases hstep : fillStep rs env ov index ctx f cur with
    | error e => simp [fillFields, hstep]
    | ok newv =>
      rcases hr : fillFields rs env ov index ctx fs vs with ⟨rest, err⟩
      have ih := fillFields_len rs env ov index ctx fs vs
      rw [hr] at ih
      simp [fillFields, hstep, hr, ih]

/-- Master lemma: when the loop succeeds, a settable field whose effective
override resolves to a value of exactly its type holds that value in the
result. -/
theorem fillFields_field (rs : RuleSet) (env : Env) (ov : Override) (index : Int) (ctx : Ctx) :
    ∀ (fields : List Field) (vals : List GoVal) (name : String) (fld : Field) (v : GoVal),
      fields.find? (fun f => f.name == name) = some fld →
      fld.canSet = true →
      effectiveResolved ov name index = some v →
      typeOf v = fld.ty →
      vals.length = fields.length →
      (fillFields rs env ov index ctx fields vals).2 = none →
      getFieldVal fields (fillFields rs env ov index ctx fields vals).1 name = some v
  | [], _, _, _, _, hfind, _, _, _, _, _ => by simp at hfind
  | _ :: _, [], _, _, _, _, _, _, _, hlen, _ => by simp at hlen
  | f :: fs, cur :: vs, name, fld, v, hfind, hset, hres, hty, hlen, hok => by
    by_cases hn : f.name = name
    · have hfld : f = fld := by
        rw [List.find?_cons_of_pos fs (by simp [hn])] at hfind
        exact Option.some.inj hfind
      have hstep := fillStep_override_hit rs env ov index ctx f cur v
        (hfld ▸ hset) (by rw [hn]; exact hres) (hfld ▸ hty)
      rcases hr : fillFields rs env ov index ctx fs vs with ⟨rest, err⟩
      simp only [fillFields, hstep, hr]
      simp [getFieldVal, hn]
    · have hfind2 : fs.find? (fun g => g.name == name) = some fld := by
        rw [List.find?_cons_of_neg fs (by simp [hn])] at hfind
        exact hfind
      cases hstep : fillStep rs env ov index ctx f cur with
      | error e =>
        rw [show fillFields rs env ov index ctx (f :: fs) (cur :: vs) = (cur :: vs, some e) by
          simp [fillFields, hstep]] at hok
        simp at hok
      | ok newv =>
        rcases hr : fillFields rs env ov index ctx fs vs with ⟨rest, err⟩
        rw [show fillFields rs env ov index ctx (f :: fs) (cur :: vs) = (newv :: rest, err) by
          simp [fillFields, hstep, hr]] at hok ⊢
        have herr : err = none := hok
        have ih := fillFields_field rs env ov index ctx fs vs name fld v hfind2 hset hres hty
          (by simpa using hlen) (by rw [hr, herr])
        rw [hr] at ih
        simpa [getFieldVal, hn] using ih

/-- Corollary of the master lemma at the `fillWithIndex` level. -/
theorem fillWithIndex_field (af : AutofillM) (env : Env) (ty : List Field) (vals : List GoVal)
    (index : Int) (overrides : List Override) (name : String) (fld : Field) (v : GoVal)
    (hfind : ty.find? (fun f => f.name == name) = some fld)
    (hset : fld.canSet = true)
    (hres : effectiveResolved (mergeOverrides overrides) name index = some v)
    (hty : typeOf v = fld.ty)
    (hlen : vals.length = ty.length)
    (hok : (fillWithIndex af env ty vals index overrides).2 = none) :
    getFieldVal ty (fillWithIndex af env ty vals index overrides).1 name = some v := by
  unfold fillWithIndex at hok ⊢
  exact fillFields_field af.rules env (mergeOverrides overrides) index _ ty vals name fld v
    hfind hset hres hty hlen hok

/-! ## C5 — instance-level defaults (spec-modelled) -/

/-- C5: with the spec-modelled `WithDefaults` map in place, a field named in
the defaults receives the default value when the call-site map has no entry
for it, and receives the call-site value when one is present — call-site
overrides win over instance defaults for the same key. -/
theorem c5_defaults_precedence (af : AutofillM) (env : Env) (ty : List Field)
    (vals : List GoVal) (dflts O : Override) (index : Int) (name : String) (fld : Field)
    (v w : GoVal)
    (hfind : ty.find? (fun f => f.name == name) = some fld)
    (hset : fld.canSet = true)
    (hlen : vals.length = ty.length) :
    (dflts name = some (.lit (some v)) → O name = none → typeOf v = fld.ty →
      (fillWithDefaults af env ty vals dflts index [O]).2 = none →
      getFieldVal ty (fillWithDefaults af env ty vals dflts index [O]).1 name = some v) ∧
    (O name = some (.lit (some w)) → typeOf w = fld.ty →
      (fillWithDefaults af env ty vals dflts index [O]).2 = none →
      getFieldVal ty (fillWithDefaults af env ty vals dflts index [O]).1 name = some w) := by
  constructor
  · intro hd ho hty hok
    unfold fillWithDefaults at hok ⊢
    refine fillWithIndex_field af env ty vals index [dflts, O] name fld v hfind hset ?_ hty
      hlen hok
    simp [effectiveResolved, mergeOverrides_pair, ho, hd, resolveOverride]
  · intro ho hty hok
    unfold fillWithDefaults at hok ⊢
    refine fillWithIndex_field af env ty vals index [dflts, O] name fld w hfind hset ?_ hty
      hlen hok
    simp [effectiveResolved, mergeOverrides_pair, ho, resolveOverride]

/-- The instance defaults of the C5 witness: `Name` defaults to "admin". -/
def c5dflts : Override :=
  fun n => if n = "Name" then some (.lit (some (.VString "admin"))) else none

/-- The call-site map of the C5 witness: `Name` overridden to "super". -/
def c5callsite : Override :=
  fun n => if n = "Name" then some (.lit (some (.VString "super"))) else none

/-- Witness for C5: the default applies without a call-site entry, the
call-site entry wins when present. -/
theorem c5_defaults_precedence_witness :
    getFieldVal oneStringField
        (fillWithDefaults { seed := 0, rules := [] } { uuid := fun _ => "", now := 0 }
          oneStringField [.VString ""] c5dflts 0 [fun _ => none]).1 "Name" =
      some (.VString "admin") ∧
    getFieldVal oneStringField
        (fillWithDefaults { seed := 0, rules := [] } { uuid := fun _ => "", now := 0 }
          oneStringField [.VString ""] c5dflts 0 [c5callsite]).1 "Name" =
      some (.VString "super") := by
  constructor
  · exact (c5_defaults_precedence { seed := 0, rules := [] } { uuid := fun _ => "", now := 0 }
      oneStringField [.VString ""] c5dflts (fun _ => none) 0 "Name"
      { name := "Name", ty := .tString } (.VString "admin") (.VString "admin")
      (by decide) rfl (by decide)).1 rfl rfl rfl (by decide)
  · exact (c5_defaults_precedence { seed := 0, rules := [] } { uuid := fun _ => "", now := 0 }
      oneStringField [.VString ""] c5dflts c5callsite 0 "Name"
      { name := "Name", ty := .tString } (.VString "admin") (.VString "super")
      (by decide) rfl (by decide)).2 rfl rfl (by decide)

/-! ## Slice population lemmas -/

/-- When the slice loop starting at `i0` succeeds, element `j` of the
result is exactly the fill of input element `j` at index `i0 + j`, and that
fill succeeded. -/
theorem fillSliceAux_spec (af : AutofillM) (env : Env) (ty : List Field) (os : List Override) :
    ∀ (elems : List (List GoVal)) (i0 : Int),
      (fillSliceAux af env ty os i0 elems).2 = none →
      ∀ (j : Nat), j < elems.length →
        (fillWithIndex af env ty (elems.getD j []) (i0 + j) os).2 = none ∧
        (fillSliceAux af env ty os i0 elems).1.getD j [] =
          (fillWithIndex af env ty (elems.getD j []) (i0 + j) os).1
  | [], _, _, j, hj => by simp at hj
  | e :: rest, i0, hok, j, hj => by
    rcases hfill : fillWithIndex af env ty e i0 os with ⟨e2, err⟩
    cases err with
    | some er =>
      rw [show fillSliceAux af env ty os i0 (e :: rest) = (e2 :: rest, some (.elemWrap i0 er))
        by simp [fillSliceAux, hfill]] at hok
      simp at hok
    | none =>
      rcases hr : fillSliceAux af env ty os (i0 + 1) rest with ⟨rest2, err2⟩
      rw [show fillSliceAux af env ty os i0 (e :: rest) = (e2 :: rest2, err2) by
        simp [fillSliceAux, hfill, hr]] at hok ⊢
      cases j with
      | zero =>
        constructor
        · simp only [List.getD_cons_zero, Nat.cast_zero, add_zero]
          rw [hfill]
        · simp only [List.getD_cons_zero, Nat.cast_zero, add_zero]
          rw [hfill]
      | succ k =>
        have hok2 : (fillSliceAux af env ty os (i0 + 1) rest).2 = none := by
          rw [hr]
          exact hok
        have ih := fillSliceAux_spec af env ty os rest (i0 + 1) hok2 k (by simpa using hj)
        rw [hr] at ih
        have harith : i0 + 1 + (k : Int) = i0 + ((k : Nat) + 1 : Nat) := by
          push_cast
          ring
        constructor
        · have h1 := ih.1
          rw [harith] at h1
          simpa using h1
        · have h2 := ih.2
          rw [harith] at h2
          simpa using h2

/-! ## C6 — literal and sequence overrides -/

/-- C6: over a slice population that succeeds, a field with a non-nil
literal override entry of exactly its type holds that literal in every
element (overriding any tag or type-default strategy), and a field with a
sequence-function entry holds `f(i)` in element `i` whenever `f(i)` is a
non-nil value of the field's type. -/
theorem c6_literal_and_sequence (af : AutofillM) (env : Env) (ty : List Field)
    (elems : List (List GoVal)) (O : Override) (name : String) (fld : Field)
    (hfind : ty.find? (fun f => f.name == name) = some fld)
    (hset : fld.canSet = true)
    (hlen : ∀ e ∈ elems, e.length = ty.length)
    (hok : (fillSlice af env ty elems [O]).2 = none) :
    (∀ v : GoVal, O name = some (.lit (some v)) → typeOf v = fld.ty →
      ∀ j : Nat, j < elems.length →
        getFieldVal ty ((fillSlice af env ty elems [O]).1.getD j []) name = some v) ∧
    (∀ f : Int → Option GoVal, O name = some (.seqF f) →
      ∀ (j : Nat) (v : GoVal), j < elems.length → f j = some v → typeOf v = fld.ty →
        getFieldVal ty ((fillSlice af env ty elems [O]).1.getD j []) name = some v) := by
  unfold fillSlice at hok ⊢
  have hmem : ∀ (j : Nat), j < elems.length → (elems.getD j []).length = ty.length := by
    intro j hj
    refine hlen _ ?_
    rw [List.getD_eq_getElem _ _ hj]
    exact List.getElem_mem hj
  constructor
  · intro v ho hty j hj
    have h := fillSliceAux_spec af env ty [O] elems 0 hok j hj
    rw [h.2]
    refine fillWithIndex_field af env ty (elems.getD j []) (0 + j) [O] name fld v hfind hset
      ?_ hty (hmem j hj) h.1
    simp [effectiveResolved, mergeOverrides_single, ho, resolveOverride]
  · intro f ho j v hj hf hty
    have h := fillSliceAux_spec af env ty [O] elems 0 hok j hj
    rw [h.2]
    refine fillWithIndex_field af env ty (elems.getD j []) (0 + j) [O] name fld v hfind hset
      ?_ hty (hmem j hj) h.1
    simp [effectiveResolved, mergeOverrides_single, ho, resolveOverride]
    simpa using hf

/-- Witness fixtures for C6: a two-string-field struct with a literal and a
sequence override. -/
def c6ty : List Field :=
  [{ name := "TeamID", ty := .tString }, { name := "Email", ty := .tString }]

/-- The C6 witness override map. -/
def c6ov : Override := fun n =>
  if n = "TeamID" then some (.lit (some (.VString "engineering")))
  else if n = "Email" then some (.seqF (fun i => some (.VString (decString i)))) else none

/-- Witness for C6 on a two-element slice: the literal appears in element 1
and the sequence value there is `f(1) = "1"`. -/
theorem c6_literal_and_sequence_witness :
    getFieldVal c6ty
        ((fillSlice { seed := 0, rules := [] } { uuid := fun _ => "", now := 0 } c6ty
          [[.VString "", .VString ""], [.VString "", .VString ""]] [c6ov]).1.getD 1 [])
        "TeamID" = some (.VString "engineering") ∧
    getFieldVal c6ty
        ((fillSlice { seed := 0, rules := [] } { uuid := fun _ => "", now := 0 } c6ty
          [[.VString "", .VString ""], [.VString "", .VString ""]] [c6ov]).1.getD 1 [])
        "Email" = some (.VString "1") := by
  constructor
  · exact (c6_literal_and_sequence { seed := 0, rules := [] } { uuid := fun _ => "", now := 0 }
      c6ty [[.VString "", .VString ""], [.VString "", .VString ""]] c6ov "TeamID"
      { name := "TeamID", ty := .tString } (by decide) rfl (by decide) (by decide)).1
      (.VString "engineering") rfl rfl 1 (by decide)
  · exact (c6_literal_and_sequence { seed := 0, rules := [] } { uuid := fun _ => "", now := 0 }
      c6ty [[.VString "", .VString ""], [.VString "", .VString ""]] c6ov "Email"
      { name := "Email", ty := .tString } (by decide) rfl (by decide) (by decide)).2
      (fun i => some (.VString (decString i))) rfl 1 (.VString "1") (by decide) rfl rfl

/-! ## C8 — first element error aborts the slice -/

/-- When element `j` (counting from loop start `i0`) is the first to fail,
the slice loop returns its error wrapped with `i0 + j`, elements before `j`
hold their fills, element `j` holds the failing fill's partial state, and
every later element is untouched. -/
theorem fillSliceAux_err (af : AutofillM) (env : Env) (ty : List Field) (os : List Override) :
    ∀ (elems : List (List GoVal)) (i0 : Int) (j : Nat) (e : GoErr),
      j < elems.length →
      (∀ k : Nat, k < j → (fillWithIndex af env ty (elems.getD k []) (i0 + k) os).2 = none) →
      (fillWithIndex af env ty (elems.getD j []) (i0 + j) os).2 = some e →
      (fillSliceAux af env ty os i0 elems).2 = some (.elemWrap (i0 + j) e) ∧
      (∀ k : Nat, k < j →
        (fillSliceAux af env ty os i0 elems).1.getD k [] =
          (fillWithIndex af env ty (elems.getD k []) (i0 + k) os).1) ∧
      (fillSliceAux af env ty os i0 elems).1.getD j [] =
        (fillWithIndex af env ty (elems.getD j []) (i0 + j) os).1 ∧
      (∀ k : Nat, j < k →
        (fillSliceAux af env ty os i0 elems).1.getD k [] = elems.getD k [])
  | [], _, _, _, hj, _, _ => by simp at hj
  | e0 :: rest, i0, j, e, hj, hpre, herr => by
    rcases hfill : fillWithIndex af env ty e0 i0 os with ⟨e2, err⟩
    cases j with
    | zero =>
      have herr0 : err = some e := by
        have h := herr
        simp only [List.getD_cons_zero, Nat.cast_zero, add_zero] at h
        rw [hfill] at h
        exact h
      subst herr0
      rw [show fillSliceAux af env ty os i0 (e0 :: rest) = (e2 :: rest, some (.elemWrap i0 e))
        by simp [fillSliceAux, hfill]]
      refine ⟨by simp, ?_, ?_, ?_⟩
      · intro k hk
        exact absurd hk (Nat.not_lt_zero k)
      · simp only [List.getD_cons_zero, Nat.cast_zero, add_zero]
        rw [hfill]
      · intro k hk
        cases k with
        | zero => omega
        | succ m => simp
    | succ n =>
      have h0 : err = none := by
        have h := hpre 0 (Nat.succ_pos n)
        simp only [List.getD_cons_zero, Nat.cast_zero, add_zero] at h
        rw [hfill] at h
        exact h
      subst h0
      rcases hr : fillSliceAux af env ty os (i0 + 1) rest with ⟨rest2, err2⟩
      have harith : ∀ m : Nat, i0 + 1 + (m : Int) = i0 + ((m : Nat) + 1 : Nat) := by
        intro m
        push_cast
        ring
      have ih := fillSliceAux_err af env ty os rest (i0 + 1) n e (by simpa using hj)
        (fun k hk => by
          have h := hpre (k + 1) (by omega)
          rw [harith k]
          simpa using h)
        (by
          have h := herr
          rw [harith n]
          simpa using h)
      rw [hr] at ih
      rw [show fillSliceAux af env ty os i0 (e0 :: rest) = (e2 :: rest2, err2) by
        simp [fillSliceAux, hfill, hr]]
      refine ⟨?_, ?_, ?_, ?_⟩
      · have h := ih.1
        rw [harith n] at h
        exact h
      · intro k hk
        cases k with
        | zero =>
          simp only [List.getD_cons_zero, Nat.cast_zero, add_zero]
          rw [hfill]
        | succ m =>
          have h := ih.2.1 m (by omega)
          rw [harith m] at h
          simpa using h
      · have h := ih.2.2.1
        rw [harith n] at h
        simpa using h
      · intro k hk
        cases k with
        | zero => omega
        | succ m =>
          have h := ih.2.2.2 m (by omega)
          simpa using h

/-- C8: a slice population stops at the first element whose fill fails: the
call returns that element's error wrapped with its position, elements
before it hold their (successful) fills, the failing element holds whatever
its aborted fill left behind, and no later element is populated. -/
theorem c8_first_error_aborts (af : AutofillM) (env : Env) (ty : List Field)
    (elems : List (List GoVal)) (os : List Override) (j : Nat) (e : GoErr)
    (hj : j < elems.length)
    (hpre : ∀ k : Nat, k < j → (fillWithIndex af env ty (elems.getD k []) k os).2 = none)
    (herr : (fillWithIndex af env ty (elems.getD j []) j os).2 = some e) :
    (fillSlice af env ty elems os).2 = some (.elemWrap j e) ∧
    (∀ k : Nat, k < j →
      (fillSlice af env ty elems os).1.getD k [] =
        (fillWithIndex af env ty (elems.getD k []) k os).1) ∧
    (fillSlice af env ty elems os).1.getD j [] =
      (fillWithIndex af env ty (elems.getD j []) j os).1 ∧
    (∀ k : Nat, j < k → (fillSlice af env ty elems os).1.getD k [] = elems.getD k []) := by
  unfold fillSlice
  have h := fillSliceAux_err af env ty os elems 0 j e hj
    (fun k hk => by simpa using hpre k hk)
    (by simpa using herr)
  simpa using h

/-- Witness fixtures for C8: an int field whose sequence override yields a
valid value at index 0 and a string (type mismatch) from index 1 on. -/
def c8ty : List Field := [{ name := "Age", ty := .tInt }]

/-- The C8 witness override map. -/
def c8ov : Override := fun n =>
  if n = "Age" then
    some (.seqF (fun i => if i = 0 then some (.VInt 1) else some (.VString "bad")))
  else none

/-- Witness for C8: element 1 fails with the wrapped coercion error, the
call's error names position 1, and element 2 is untouched. -/
theorem c8_first_error_aborts_witness :
    (fillSlice { seed := 0, rules := [] } { uuid := fun _ => "", now := 0 } c8ty
        [[.VInt 0], [.VInt 0], [.VInt 0]] [c8ov]).2 =
      some (.elemWrap 1 (.setOverrideWrap "Age" (.cannotSet .tInt .tString))) ∧
    (fillSlice { seed := 0, rules := [] } { uuid := fun _ => "", now := 0 } c8ty
        [[.VInt 0], [.VInt 0], [.VInt 0]] [c8ov]).1.getD 2 [] = [.VInt 0] := by
  have h := c8_first_error_aborts { seed := 0, rules := [] } { uuid := fun _ => "", now := 0 }
    c8ty [[.VInt 0], [.VInt 0], [.VInt 0]] [c8ov] 1
    (.setOverrideWrap "Age" (.cannotSet .tInt .tString)) (by decide)
    (fun k hk => by
      have hk0 : k = 0 := Nat.lt_one_iff.mp hk
      subst hk0
      decide)
    (by decide)
  exact ⟨h.1, (h.2.2.2 2 (by decide)).trans (by decide)⟩

/-! ## C7 — the min/max numeric-range branch -/

/-- C7: when a directive carries numeric `min=N` and `max=M` tokens, no
`rule=` token, and its bare-token block produces nothing, the dispatcher at
index `i` produces `N + (i tmod (M - N + 1))` for `N ≤ M`; for `0 ≤ i` this
value lies in `[N, M]` inclusive, and `N = M` yields exactly `N`; while for
`N > M` the branch produces nothing and generation falls through to the
oneof branch. -/
theorem c7_minmax_range (rs : RuleSet) (env : Env) (tag : String) (ctx : Ctx)
    (N M : Int) (sN sM : List Char)
    (hrule : tagParams tag "rule".data = none)
    (hbare : bareBranch rs env ctx (mainTagOf tag) = none)
    (hmin : tagParams tag "min".data = some sN)
    (hmax : tagParams tag "max".data = some sM)
    (hN : sscanfD sN = N) (hM : sscanfD sM = M) :
    (N ≤ M →
      generateFromTag rs env tag ctx =
        .ok (some (.VInt (N + Int.tmod ctx.index (M - N + 1)))) ∧
      (0 ≤ ctx.index →
        N ≤ N + Int.tmod ctx.index (M - N + 1) ∧ N + Int.tmod ctx.index (M - N + 1) ≤ M) ∧
      (N = M → N + Int.tmod ctx.index (M - N + 1) = N)) ∧
    (M < N → generateFromTag rs env tag ctx = oneofBranch (tagParams tag) ctx.index) := by
  have hmain : generateFromTag rs env tag ctx =
      match minmaxBranch (tagParams tag) ctx.index with
      | some v => .ok (some v)
      | none => oneofBranch (tagParams tag) ctx.index := by
    simp only [generateFromTag, hrule, hbare]
  have hmm : minmaxBranch (tagParams tag) ctx.index =
      if N ≤ M then some (.VInt (N + Int.tmod ctx.index (M - N + 1))) else none := by
    simp only [minmaxBranch, hmin, hmax, hN, hM]
  constructor
  · intro hNM
    refine ⟨?_, ?_, ?_⟩
    · rw [hmain, hmm, if_pos hNM]
    · intro hi
      have hp : (0 : Int) < M - N + 1 := by omega
      have h1 := Int.tmod_nonneg (M - N + 1) hi
      have h2 := Int.tmod_lt_of_pos ctx.index hp
      omega
    · intro hNM2
      have h1 : M - N + 1 = 1 := by omega
      rw [h1, Int.tmod_one, add_zero]
  · intro hMN
    rw [hmain, hmm, if_neg (by omega)]

/-- Witness for C7: `min=18,max=65` at index 7 yields 25, inside [18, 65]. -/
theorem c7_minmax_range_witness :
    generateFromTag [] { uuid := fun _ => "", now := 0 } "min=18,max=65"
        { locale := "", seed := 0, index := 7, fieldMap := fun _ => none, fieldName := "" } =
      .ok (some (.VInt (18 + Int.tmod 7 (65 - 18 + 1)))) ∧
    (18 : Int) ≤ 18 + Int.tmod 7 (65 - 18 + 1) ∧ 18 + Int.tmod 7 (65 - 18 + 1) ≤ 65 := by
  have h := c7_minmax_range [] { uuid := fun _ => "", now := 0 } "min=18,max=65"
    { locale := "", seed := 0, index := 7, fieldMap := fun _ => none, fieldName := "" }
    18 65 "18".data "65".data (by decide) (by decide) (by decide) (by decide) (by decide)
    (by decide)
  refine ⟨(h.1 (by decide)).1, ?_⟩
  exact (h.1 (by decide)).2.1 (by decide)

/-! ## C9 — bare unrecognised tokens versus rule= lookups -/

/-- C9: a directive whose first token is a bare word that is neither a
built-in keyword nor a registered rule name produces no value and no error
— the dispatcher silently falls through to the min/max and oneof branches,
and with those absent `generateValue` falls back to type-default generation
— whereas an explicit `rule=` token naming an unregistered rule fails with
a "rule not found" error. -/
theorem c9_bare_vs_rule (rs : RuleSet) (env : Env) (tag : String) (ctx : Ctx) (rn : List Char) :
    ((tagParams tag "rule".data = none) →
      ((mainTagOf tag).contains '=') = false →
      mainTagOf tag ≠ "seq".data → mainTagOf tag ≠ "now".data →
      mainTagOf tag ≠ "email".data → mainTagOf tag ≠ "url".data →
      mainTagOf tag ≠ "uuid".data →
      RuleSet.Get rs (String.mk (mainTagOf tag)) = none →
      (generateFromTag rs env tag ctx =
        match minmaxBranch (tagParams tag) ctx.index with
        | some v => .ok (some v)
        | none => oneofBranch (tagParams tag) ctx.index) ∧
      (minmaxBranch (tagParams tag) ctx.index = none →
        tagParams tag "oneof".data = none →
        generateFromTag rs env tag ctx = .ok none) ∧
      (∀ f : Field, f.tag = tag → tag ≠ "-" → tag ≠ "" →
        minmaxBranch (tagParams tag) ctx.index = none →
        tagParams tag "oneof".data = none →
        generateValue rs env f ctx = generateByType env f.ty ctx)) ∧
    ((tagParams tag "rule".data = some rn) →
      RuleSet.Get rs (String.mk rn) = none →
      generateFromTag rs env tag ctx = .error (.ruleNotFound (String.mk rn))) := by
  constructor
  · intro hrule hco hseq hnow hemail hurl huuid hget
    have hb : bareBranch rs env ctx (mainTagOf tag) = none := by
      unfold bareBranch
      rw [if_neg (by rw [hco]; exact Bool.false_ne_true), if_neg hseq, if_neg hnow,
        if_neg hemail, if_neg hurl, if_neg huuid, hget]
    have hmain : generateFromTag rs env tag ctx =
        match minmaxBranch (tagParams tag) ctx.index with
        | some v => .ok (some v)
        | none => oneofBranch (tagParams tag) ctx.index := by
      simp only [generateFromTag, hrule, hb]
    have hnone : minmaxBranch (tagParams tag) ctx.index = none →
        tagParams tag "oneof".data = none → generateFromTag rs env tag ctx = .ok none := by
      intro hmm hoo
      rw [hmain, hmm]
      simp only [oneofBranch, hoo]
    refine ⟨hmain, hnone, ?_⟩
    intro f hf h1 h2 hmm hoo
    have hfn := hnone hmm hoo
    simp [generateValue, hf, h1, h2, hfn]
  · intro hrule hget
    simp only [generateFromTag, hrule, hget]

/-- Witness for C9: the bare unregistered token `status` silently yields
nothing, while `rule=missing` fails the dispatch with "rule not found". -/
theorem c9_bare_vs_rule_witness :
    generateFromTag [] { uuid := fun _ => "", now := 0 } "status"
        { locale := "", seed := 0, index := 0, fieldMap := fun _ => none, fieldName := "" } =
      .ok none ∧
    generateFromTag [] { uuid := fun _ => "", now := 0 } "rule=missing"
        { locale := "", seed := 0, index := 0, fieldMap := fun _ => none, fieldName := "" } =
      .error (.ruleNotFound "missing") := by
  constructor
  · exact ((c9_bare_vs_rule [] { uuid := fun _ => "", now := 0 } "status"
      { locale := "", seed := 0, index := 0, fieldMap := fun _ => none, fieldName := "" }
      "missing".data).1 (by decide) (by decide) (by decide) (by decide) (by decide)
      (by decide) (by decide) rfl).2.1 (by decide) (by decide)
  · exact ((c9_bare_vs_rule [] { uuid := fun _ => "", now := 0 } "rule=missing"
      { locale := "", seed := 0, index := 0, fieldMap := fun _ => none, fieldName := "" }
      "missing".data).2 (by decide) rfl)

end Autofill
